import Mathlib

/-!
Verification of the Montgomery multiplication engine in
src/montgomery/montgomery.go (package montgomery).

Arbitrary-precision integers (math/big.Int, always non-negative here) are
modelled as Nat; 64-bit machine words (uint64) as Nat reduced modulo
U64 = 2^64 at every operation, mirroring wraparound arithmetic; word
buffers ([]uint64) as List Nat (little-endian); runtime panics
(index out of range, division by zero) as Option.none.
-/

/-- 2^64, the modulus of uint64 wraparound arithmetic. -/
def U64 : Nat := 2 ^ 64

/-- Fuel-driven helper for bitLen; the fuel only bounds the recursion depth
and any fuel at least n computes the bit length of n. -/
def bitLenAux : Nat → Nat → Nat
  | 0, _ => 0
  | fuel + 1, n => if n = 0 then 0 else bitLenAux fuel (n / 2) + 1

/-- big.Int.BitLen: the length of the absolute value of the integer in bits;
the bit length of 0 is 0. -/
def bitLen (n : Nat) : Nat := bitLenAux n n

/-- len of big.Int.Bits(): the number of 64-bit words of the little-endian
word representation of the integer, without leading zero words. -/
def numWords (n : Nat) : Nat := (bitLen n + 63) / 64

/-- Reading word i of a big.Int as redc2 and the word-array variants do:
yy.Bits()[i] when i is in range, and 0 otherwise. -/
def getWord (y i : Nat) : Nat := if i < numWords y then y / 2 ^ (64 * i) % U64 else 0

/-- frombigInt: the []uint64 little-endian word representation of a big.Int. -/
def frombigInt (x : Nat) : List Nat := (List.range (numWords x)).map (getWord x)

/-- tobigInt: big.Int value of a little-endian []uint64 word buffer
(big.Int.SetBits). -/
def tobigInt (words : List Nat) : Nat := words.foldr (fun w acc => w + U64 * acc) 0

/-- One Newton-Raphson doubling step of newtonRaphsonInverse:
x = x * (2 - n*x) in uint64 wraparound arithmetic. -/
def nrStep (n x : Nat) : Nat := x * ((2 + U64 - n * x % U64) % U64) % U64

/-- newtonRaphsonInverse: six doubling steps from x = 1, then two's-complement
negation, computing -n^(-1) mod 2^64 for odd n. -/
def newtonRaphsonInverse (n : Nat) : Nat :=
  let x := 1
  let x := nrStep n x
  let x := nrStep n x
  let x := nrStep n x
  let x := nrStep n x
  let x := nrStep n x
  let x := nrStep n x
  (U64 - x % U64) % U64

/-- One iteration of the bit-serial REDC loop: if the low bit of the
accumulator is 1 add N, then shift right by one bit. -/
def redcStep (N T : Nat) : Nat := if T % 2 = 1 then (T + N) / 2 else T / 2

/-- The bit-serial REDC loop body, iterated k times. -/
def redcLoop (N : Nat) : Nat → Nat → Nat
  | 0, T => T
  | k + 1, T => redcLoop N k (redcStep N T)

/-- Shared body of redc and Montgomery.redc: k loop iterations on x*y,
then one conditional subtraction of N. -/
def redcCore (k N x y : Nat) : Nat :=
  let T := redcLoop N k (x * y)
  if N ≤ T then T - N else T

/-- redc: bit-serial Montgomery reduction (x * y * R^(-1)) mod N; the loop
for r := 1; r < R.BitLen(); r++ runs BitLen(R) - 1 times. -/
def redc (x y R N : Nat) : Nat := redcCore (bitLen R - 1) N x y

/-- Montgomery holds precomputed values for Montgomery multiplication. -/
structure Montgomery where
  R : Nat
  N : Nat
  RR : Nat
deriving DecidableEq

/-- NewMontgomery: precomputes R * R mod N; big.Int.Mod panics with a
division by zero when N = 0, modelled as none. -/
def NewMontgomery (R N : Nat) : Option Montgomery :=
  if N = 0 then none else some ⟨R, N, R * R % N⟩

/-- Montgomery.redc: bit-serial Montgomery reduction with the fields of the
context. -/
def Montgomery.redc (m : Montgomery) (x y : Nat) : Nat :=
  redcCore (bitLen m.R - 1) m.N x y

/-- Montgomery.Mul: enter the Montgomery domain with RR, reduce the product,
leave the domain with 1. -/
def Montgomery.Mul (m : Montgomery) (x y : Nat) : Nat :=
  let xMont := Montgomery.redc m x m.RR
  let yMont := Montgomery.redc m y m.RR
  let result := Montgomery.redc m xMont yMont
  Montgomery.redc m result 1

/-- One iteration of the word-serial CIOS loop of redc2 and
MontgomeryCIOS.redc: add x times word i of y, derive the single-word
correction from the low word, add correction * N, shift right one word. -/
def cios2Step (NI N x y T i : Nat) : Nat :=
  let T1 := T + x * getWord y i
  let mm := T1 * NI % U64
  (T1 + mm * N) / U64

/-- The CIOS loop of redc2 and MontgomeryCIOS.redc iterated over word
indices 0, 1, ..., s-1 starting from T = 0. -/
def ciosLoop (NI N x y : Nat) : Nat → Nat
  | 0 => 0
  | i + 1 => cios2Step NI N x y (ciosLoop NI N x y i) i

/-- Shared body of redc2 and MontgomeryCIOS.redc: s CIOS iterations,
then one conditional subtraction of N. -/
def ciosRedc (NI N s x y : Nat) : Nat :=
  let T := ciosLoop NI N x y s
  if N ≤ T then T - N else T

/-- redc2: word-serial CIOS Montgomery reduction over big.Int, recomputing
NI from the low 64 bits of N and s from the bit length of R. -/
def redc2 (x y R N : Nat) : Nat :=
  ciosRedc (newtonRaphsonInverse (N % U64)) N (bitLen R / 64) x y

/-- MontgomeryCIOS holds precomputed values for word-by-word Montgomery
multiplication (CIOS algorithm). -/
structure MontgomeryCIOS where
  R : Nat
  N : Nat
  RR : Nat
  NI : Nat
  S : Nat
deriving DecidableEq

/-- NewMontgomeryCIOS: precomputes R * R mod N, NI and the word count S;
none models the division-by-zero panic at N = 0. -/
def NewMontgomeryCIOS (R N : Nat) : Option MontgomeryCIOS :=
  if N = 0 then none
  else some ⟨R, N, R * R % N, newtonRaphsonInverse (N % U64), bitLen R / 64⟩

/-- MontgomeryCIOS.redc: CIOS Montgomery reduction with the fields of the
context. -/
def MontgomeryCIOS.redc (m : MontgomeryCIOS) (x y : Nat) : Nat :=
  ciosRedc m.NI m.N m.S x y

/-- MontgomeryCIOS.Mul: the same four-reduction pipeline as Montgomery.Mul. -/
def MontgomeryCIOS.Mul (m : MontgomeryCIOS) (x y : Nat) : Nat :=
  let xMont := MontgomeryCIOS.redc m x m.RR
  let yMont := MontgomeryCIOS.redc m y m.RR
  let result := MontgomeryCIOS.redc m xMont yMont
  MontgomeryCIOS.redc m result 1

/-- The second loop of mulAddScalar: propagate a carry into the remaining
words of T until it vanishes or T is exhausted (a carry falling off the end
of T is dropped, as in the source). -/
def propagate : List Nat → Nat → List Nat
  | [], _ => []
  | t :: T, carry =>
    if carry = 0 then t :: T
    else (t + carry) % U64 :: propagate T ((t + carry) / U64)

/-- The main loop of mulAddScalar over the words of arr, with the incoming
carry; indexing T[i] beyond the length of T is a runtime panic, modelled as
none. hi and lo are the two halves of bits.Mul64, the two bits.Add64 calls
produce the unit carries c1 and c2, and the outgoing carry hi + c1 + c2 is
computed in uint64 arithmetic. -/
def mulAddGo : List Nat → List Nat → Nat → Nat → Option (List Nat)
  | T, [], _, carry => some (propagate T carry)
  | [], _ :: _, _, _ => none
  | t :: T, a :: arr, scalar, carry =>
    let hi := a * scalar / U64
    let lo := a * scalar % U64
    let s1 := (t + lo) % U64
    let c1 := (t + lo) / U64
    let sum := (s1 + carry) % U64
    let c2 := (s1 + carry) / U64
    Option.map (fun T2 => sum :: T2) (mulAddGo T arr scalar ((hi + c1 + c2) % U64))

/-- mulAddScalar: T = T + arr * scalar over little-endian word buffers,
carry propagating beyond len(arr) into the high words of T. -/
def mulAddScalar (T arr : List Nat) (scalar : Nat) : Option (List Nat) :=
  mulAddGo T arr scalar 0

/-- One iteration of the word-array CIOS loop shared by redc3 and
MontgomeryWords.redc: T += x * yi, m = T[0] * NI in uint64 arithmetic,
T += m * N, then drop the least-significant word. Reading T[0] of an empty
buffer is a runtime panic, modelled as none. -/
def redc3Iter (NI : Nat) (nn xx : List Nat) (y i : Nat) (T : List Nat) :
    Option (List Nat) :=
  match mulAddScalar T xx (getWord y i) with
  | none => none
  | some T1 =>
    match T1 with
    | [] => none
    | t0 :: _ =>
      match mulAddScalar T1 nn (t0 * NI % U64) with
      | none => none
      | some T2 => some T2.tail

/-- The word-array CIOS loop over the word indices. -/
def redc3Loop (NI : Nat) (nn xx : List Nat) (y : Nat) :
    List Nat → List Nat → Option (List Nat)
  | [], T => some T
  | i :: is, T =>
    match redc3Iter NI nn xx y i T with
    | none => none
    | some T2 => redc3Loop NI nn xx y is T2

/-- redc3: word-array CIOS Montgomery reduction; the accumulator buffer
holds len(x.Bits()) + len(y.Bits()) + s + 1 words. -/
def redc3 (x y R N : Nat) : Option Nat :=
  let s := bitLen R / 64
  let NI := newtonRaphsonInverse (N % U64)
  let T0 := List.replicate (numWords x + numWords y + s + 1) 0
  match redc3Loop NI (frombigInt N) (frombigInt x) y (List.range s) T0 with
  | none => none
  | some T =>
    let t := tobigInt T
    some (if N ≤ t then t - N else t)

/-- MontgomeryWords holds precomputed values for word-by-word Montgomery
multiplication using the word-array reduction. -/
structure MontgomeryWords where
  R : Nat
  N : Nat
  RR : Nat
  NI : Nat
  S : Nat
  NN : List Nat
deriving DecidableEq

/-- NewMontgomeryWords: additionally precomputes N as a word list; none
models the division-by-zero panic at N = 0. -/
def NewMontgomeryWords (R N : Nat) : Option MontgomeryWords :=
  if N = 0 then none
  else some ⟨R, N, R * R % N, newtonRaphsonInverse (N % U64), bitLen R / 64,
    frombigInt N⟩

/-- MontgomeryWords.redc: the word-array CIOS reduction with the fields of
the context; the source inlines the two carry loops of mulAddScalar
verbatim, with identical semantics. -/
def MontgomeryWords.redc (m : MontgomeryWords) (x y : Nat) : Option Nat :=
  let T0 := List.replicate (numWords x + numWords y + m.S + 1) 0
  match redc3Loop m.NI m.NN (frombigInt x) y (List.range m.S) T0 with
  | none => none
  | some T =>
    let t := tobigInt T
    some (if m.N ≤ t then t - m.N else t)

/-- MontgomeryWords.Mul: the four-reduction pipeline; a panic in any
reduction aborts the whole call. -/
def MontgomeryWords.Mul (m : MontgomeryWords) (x y : Nat) : Option Nat :=
  match MontgomeryWords.redc m x m.RR with
  | none => none
  | some xMont =>
    match MontgomeryWords.redc m y m.RR with
    | none => none
    | some yMont =>
      match MontgomeryWords.redc m xMont yMont with
      | none => none
      | some result => MontgomeryWords.redc m result 1

/-! ### Bit length and word extraction lemmas -/

theorem bitLenAux_zero (fuel : Nat) : bitLenAux fuel 0 = 0 := by
  cases fuel <;> simp [bitLenAux]

theorem bitLenAux_two_pow : ∀ k fuel, 2 ^ k ≤ fuel → bitLenAux fuel (2 ^ k) = k + 1 := by
  intro k
  induction k with
  | zero =>
    intro fuel h
    match fuel, h with
    | f + 1, _ => simp [bitLenAux, bitLenAux_zero]
  | succ k ih =>
    intro fuel h
    have h2 : 2 ^ (k + 1) = 2 * 2 ^ k := by ring
    have hpos : 0 < 2 ^ k := Nat.pos_pow_of_pos _ (by norm_num)
    cases fuel with
    | zero => omega
    | succ f =>
      have hne : 2 ^ (k + 1) ≠ 0 := by omega
      have hdiv : 2 ^ (k + 1) / 2 = 2 ^ k := by omega
      have hf : 2 ^ k ≤ f := by omega
      simp only [bitLenAux, hne, if_false]
      rw [hdiv, ih f hf]

theorem bitLen_two_pow (k : Nat) : bitLen (2 ^ k) = k + 1 :=
  bitLenAux_two_pow k (2 ^ k) le_rfl

theorem bitLenAux_lt : ∀ fuel n, n ≤ fuel → n < 2 ^ bitLenAux fuel n := by
  intro fuel
  induction fuel with
  | zero => intro n h; interval_cases n; simp [bitLenAux]
  | succ f ih =>
    intro n h
    by_cases h0 : n = 0
    · subst h0; simp [bitLenAux]
    · simp only [bitLenAux, h0, if_false]
      have hd : n / 2 ≤ f := by omega
      have hrec := ih (n / 2) hd
      have hp : 2 ^ (bitLenAux f (n / 2) + 1) = 2 * 2 ^ bitLenAux f (n / 2) := by ring
      omega

theorem bitLen_lt (n : Nat) : n < 2 ^ bitLen n := bitLenAux_lt n n le_rfl

theorem bitLenAux_pos : ∀ fuel n, 1 ≤ n → n ≤ fuel → 1 ≤ bitLenAux fuel n := by
  intro fuel n h1 h2
  cases fuel with
  | zero => omega
  | succ f =>
    have : n ≠ 0 := by omega
    simp [bitLenAux, this]

theorem numWords_pos {n : Nat} (h : 1 ≤ n) : 1 ≤ numWords n := by
  have := bitLenAux_pos n n h le_rfl
  unfold numWords bitLen
  omega

theorem lt_of_numWords_le {y i : Nat} (h : numWords y ≤ i) : y < 2 ^ (64 * i) := by
  have h1 : y < 2 ^ bitLen y := bitLen_lt y
  have h2 : bitLen y ≤ 64 * numWords y := by
    unfold numWords
    have := Nat.div_add_mod (bitLen y + 63) 64
    omega
  have h3 : bitLen y ≤ 64 * i := by omega
  calc y < 2 ^ bitLen y := h1
    _ ≤ 2 ^ (64 * i) := Nat.pow_le_pow_right (by norm_num) h3

theorem getWord_eq (y i : Nat) : getWord y i = y / 2 ^ (64 * i) % U64 := by
  unfold getWord
  split
  · rfl
  · rename_i h
    have : y < 2 ^ (64 * i) := lt_of_numWords_le (by omega)
    rw [Nat.div_eq_of_lt this]
    rfl

theorem frombigInt_cons {N : Nat} (h : 1 ≤ N) :
    ∃ rest, frombigInt N = N % U64 :: rest ∧
      (∀ u ∈ rest, u < U64) ∧ rest.length = numWords N - 1 := by
  obtain ⟨m, hm⟩ : ∃ m, numWords N = m + 1 := by
    have := numWords_pos h
    exact ⟨numWords N - 1, by omega⟩
  refine ⟨(List.range m).map (fun i => getWord N (i + 1)), ?_, ?_, ?_⟩
  · unfold frombigInt
    rw [hm, List.range_succ_eq_map]
    have h0 : getWord N 0 = N % U64 := by
      rw [getWord_eq]
      simp
    simp only [List.map_cons, List.map_map, h0]
    rfl
  · intro u hu
    simp only [List.mem_map] at hu
    obtain ⟨i, _, rfl⟩ := hu
    rw [getWord_eq]
    exact Nat.mod_lt _ (by unfold U64; norm_num)
  · simp [hm]

theorem frombigInt_words_lt (x : Nat) : ∀ u ∈ frombigInt x, u < U64 := by
  intro u hu
  unfold frombigInt at hu
  simp only [List.mem_map] at hu
  obtain ⟨i, _, rfl⟩ := hu
  rw [getWord_eq]
  exact Nat.mod_lt _ (by unfold U64; norm_num)

/-! ### Bit-serial REDC characterization -/

theorem redcStep_exact {N : Nat} (T : Nat) (hN : N % 2 = 1) :
    2 * redcStep N T = T + T % 2 * N := by
  unfold redcStep
  split
  · rename_i h
    have hdvd : 2 ∣ T + N := by omega
    rw [Nat.mul_div_cancel' hdvd, h, one_mul]
  · rename_i h
    have h0 : T % 2 = 0 := by omega
    have hdvd : 2 ∣ T := by omega
    rw [Nat.mul_div_cancel' hdvd, h0, zero_mul, add_zero]

theorem redcLoop_ex {N : Nat} (hN : N % 2 = 1) :
    ∀ k T, ∃ c, c < 2 ^ k ∧ 2 ^ k * redcLoop N k T = T + c * N := by
  intro k
  induction k with
  | zero =>
    intro T
    exact ⟨0, by norm_num, by simp [redcLoop]⟩
  | succ k ih =>
    intro T
    obtain ⟨c, hc, hrec⟩ := ih (redcStep N T)
    have hstep : 2 * redcStep N T = T + T % 2 * N := redcStep_exact T hN
    refine ⟨T % 2 + 2 * c, ?_, ?_⟩
    · have h2 : 2 ^ (k + 1) = 2 * 2 ^ k := by ring
      have : T % 2 < 2 := Nat.mod_lt _ (by norm_num)
      omega
    · have hL : redcLoop N (k + 1) T = redcLoop N k (redcStep N T) := rfl
      calc 2 ^ (k + 1) * redcLoop N (k + 1) T
          = 2 * (2 ^ k * redcLoop N k (redcStep N T)) := by rw [hL]; ring
        _ = 2 * (redcStep N T + c * N) := by rw [hrec]
        _ = 2 * redcStep N T + 2 * (c * N) := by ring
        _ = T + T % 2 * N + 2 * (c * N) := by rw [hstep]
        _ = T + (T % 2 + 2 * c) * N := by ring

theorem condSub_lt {N T : Nat} (h : T < 2 * N) :
    (if N ≤ T then T - N else T) < N := by
  split <;> omega

theorem condSub_cast (N T : Nat) :
    (((if N ≤ T then T - N else T) : Nat) : ZMod N) = (T : ZMod N) := by
  split
  · rename_i h
    rw [Nat.cast_sub h, ZMod.natCast_self, sub_zero]
  · rfl

theorem redcCore_ok {k N : Nat} (x y : Nat) (hN : N % 2 = 1)
    (hb : x * y < 2 ^ k * N) :
    redcCore k N x y < N ∧
      (redcCore k N x y : ZMod N) * (2 : ZMod N) ^ k = (x : ZMod N) * (y : ZMod N) := by
  obtain ⟨c, hc, heq⟩ := redcLoop_ex hN k (x * y)
  have hN0 : 0 < N := by omega
  have hcN : c * N < 2 ^ k * N := by
    exact Nat.mul_lt_mul_of_lt_of_le hc le_rfl hN0
  have hlt2 : 2 ^ k * redcLoop N k (x * y) < 2 ^ k * (2 * N) := by
    have hW : 2 ^ k * (2 * N) = 2 ^ k * N + 2 ^ k * N := by ring
    omega
  have hT : redcLoop N k (x * y) < 2 * N := Nat.lt_of_mul_lt_mul_left hlt2
  constructor
  · exact condSub_lt hT
  · have hcast : ((2 ^ k * redcLoop N k (x * y) : Nat) : ZMod N)
        = ((x * y + c * N : Nat) : ZMod N) := by rw [heq]
    push_cast [ZMod.natCast_self] at hcast
    simp only [mul_zero, add_zero] at hcast
    show (((if N ≤ redcLoop N k (x * y) then redcLoop N k (x * y) - N
        else redcLoop N k (x * y)) : Nat) : ZMod N) * (2 : ZMod N) ^ k
        = (x : ZMod N) * (y : ZMod N)
    rw [condSub_cast, mul_comm]
    exact hcast

/-! ### Newton-Raphson inverse correctness -/

theorem U64_pos : 0 < U64 := by unfold U64; norm_num

theorem one_lt_U64 : 1 < U64 := by unfold U64; norm_num

theorem nrStep_doubles {n x j : Nat} (hj1 : 1 ≤ j) (hj2 : 2 * j ≤ 64)
    (h : n * x % 2 ^ j = 1) : n * nrStep n x % 2 ^ (2 * j) = 1 := by
  have hU : (0 : Nat) < U64 := U64_pos
  obtain ⟨q1, p, hpU, e1⟩ : ∃ q1 p, p < U64 ∧ n * x = U64 * q1 + p :=
    ⟨n * x / U64, n * x % U64, Nat.mod_lt _ hU, (Nat.div_add_mod _ _).symm⟩
  have hpe : n * x % U64 = p := by
    rw [e1, Nat.mul_add_mod, Nat.mod_eq_of_lt hpU]
  show n * (x * ((2 + U64 - n * x % U64) % U64) % U64) % 2 ^ (2 * j) = 1
  rw [hpe]
  obtain ⟨q3, A, hAU, e3, hAe⟩ : ∃ q3 A, A < U64 ∧ U64 * q3 + A + p = 2 + U64 ∧
      (2 + U64 - p) % U64 = A := by
    refine ⟨(2 + U64 - p) / U64, (2 + U64 - p) % U64, Nat.mod_lt _ hU, ?_, rfl⟩
    have := Nat.div_add_mod (2 + U64 - p) U64
    omega
  rw [hAe]
  obtain ⟨q2, v, hvU, e2⟩ : ∃ q2 v, v < U64 ∧ x * A = U64 * q2 + v :=
    ⟨x * A / U64, x * A % U64, Nat.mod_lt _ hU, (Nat.div_add_mod _ _).symm⟩
  have hve : x * A % U64 = v := by
    rw [e2, Nat.mul_add_mod, Nat.mod_eq_of_lt hvU]
  rw [hve]
  obtain ⟨t, et⟩ : ∃ t, n * x = 2 ^ j * t + 1 := by
    refine ⟨n * x / 2 ^ j, ?_⟩
    have := Nat.div_add_mod (n * x) (2 ^ j)
    omega
  -- Pass to the integers for the doubling identity
  have ie1 : (n : ℤ) * x = (U64 : ℤ) * q1 + p := by exact_mod_cast e1
  have ie3 : (U64 : ℤ) * q3 + A + p = 2 + (U64 : ℤ) := by exact_mod_cast e3
  have ie2 : (x : ℤ) * A = (U64 : ℤ) * q2 + v := by exact_mod_cast e2
  have iet : (n : ℤ) * x = 2 ^ j * t + 1 := by exact_mod_cast et
  have hkey : (n : ℤ) * v - 1 =
      -(((2 : ℤ) ^ j * t) ^ 2) +
        (U64 : ℤ) * ((n : ℤ) * x * (1 + q1 - q3) - n * q2) := by
    linear_combination ((n : ℤ) * x) * ie1 + ((n : ℤ) * x) * ie3 - (n : ℤ) * ie2 -
      ((n : ℤ) * x - 1 + 2 ^ j * t) * iet
  have hdvdU : (2 : ℤ) ^ (2 * j) ∣ (U64 : ℤ) := by
    have hcast : (U64 : ℤ) = 2 ^ 64 := by norm_num [U64]
    rw [hcast]
    exact pow_dvd_pow 2 hj2
  have hdvd : (2 : ℤ) ^ (2 * j) ∣ (n : ℤ) * v - 1 := by
    rw [hkey]
    refine dvd_add ⟨-(t ^ 2), by ring⟩ (Dvd.dvd.mul_right hdvdU _)
  have hnv1 : 1 ≤ n * v := by
    by_contra h0
    have hz : n * v = 0 := by omega
    have : (2 : ℤ) ^ (2 * j) ∣ 1 := by
      have h1 : ((n * v : Nat) : ℤ) = 0 := by exact_mod_cast hz
      have h2 : (n : ℤ) * v = 0 := by push_cast at h1; linarith
      rw [h2] at hdvd
      simpa using (dvd_neg.mp (by simpa using hdvd))
    have hle : (2 : ℤ) ^ (2 * j) ≤ 1 := Int.le_of_dvd one_pos this
    have h4 : (4 : ℤ) ≤ 2 ^ (2 * j) := by
      calc (4 : ℤ) = 2 ^ 2 := by norm_num
        _ ≤ 2 ^ (2 * j) := pow_le_pow_right₀ (by norm_num) (by omega)
    omega
  have hdvdNat : 2 ^ (2 * j) ∣ n * v - 1 := by
    have h1 : ((n * v - 1 : Nat) : ℤ) = (n : ℤ) * v - 1 := by
      push_cast [Nat.cast_sub hnv1]
      ring
    have h2 : ((2 ^ (2 * j) : Nat) : ℤ) ∣ ((n * v - 1 : Nat) : ℤ) := by
      rw [h1]
      exact_mod_cast hdvd
    exact_mod_cast h2
  obtain ⟨u, hu⟩ := hdvdNat
  have hnv : n * v = 2 ^ (2 * j) * u + 1 := (Nat.sub_eq_iff_eq_add hnv1).mp hu
  rw [hnv, Nat.mul_add_mod]
  exact Nat.mod_eq_of_lt (Nat.one_lt_two_pow_iff.mpr (by omega))

theorem nri_correct {n : Nat} (hodd : n % 2 = 1) :
    n * newtonRaphsonInverse n % U64 = U64 - 1 := by
  have hU : (0 : Nat) < U64 := U64_pos
  have hUe : U64 = 2 ^ 64 := rfl
  have s0 : n * 1 % 2 ^ 1 = 1 := by simpa using hodd
  show n * ((U64 - nrStep n (nrStep n (nrStep n (nrStep n (nrStep n (nrStep n 1))))) %
      U64) % U64) % U64 = U64 - 1
  generalize hg1 : nrStep n 1 = x1
  have s1 : n * x1 % 2 ^ 2 = 1 := hg1 ▸ nrStep_doubles (by norm_num) (by norm_num) s0
  generalize hg2 : nrStep n x1 = x2
  have s2 : n * x2 % 2 ^ 4 = 1 := hg2 ▸ nrStep_doubles (by norm_num) (by norm_num) s1
  generalize hg3 : nrStep n x2 = x3
  have s3 : n * x3 % 2 ^ 8 = 1 := hg3 ▸ nrStep_doubles (by norm_num) (by norm_num) s2
  generalize hg4 : nrStep n x3 = x4
  have s4 : n * x4 % 2 ^ 16 = 1 := hg4 ▸ nrStep_doubles (by norm_num) (by norm_num) s3
  generalize hg5 : nrStep n x4 = x5
  have s5 : n * x5 % 2 ^ 32 = 1 := hg5 ▸ nrStep_doubles (by norm_num) (by norm_num) s4
  generalize hg6 : nrStep n x5 = x6
  have s6 : n * x6 % 2 ^ 64 = 1 := hg6 ▸ nrStep_doubles (by norm_num) (by norm_num) s5
  have hx6U : x6 < U64 := by
    rw [← hg6]
    exact Nat.mod_lt _ hU
  rw [Nat.mod_eq_of_lt hx6U]
  have hx61 : 1 ≤ x6 := by
    by_contra h0
    have hz : x6 = 0 := by omega
    rw [hz] at s6
    simp at s6
  rw [Nat.mod_eq_of_lt (show U64 - x6 < U64 by omega)]
  obtain ⟨c, hc⟩ : ∃ c, n * x6 = 2 ^ 64 * c + 1 := by
    refine ⟨n * x6 / 2 ^ 64, ?_⟩
    have := Nat.div_add_mod (n * x6) (2 ^ 64)
    omega
  have hsplit : n * (U64 - x6) + n * x6 = n * U64 := by
    rw [← Nat.mul_add]
    congr 1
    omega
  simp only [hUe] at hsplit ⊢
  omega

/-! ### CIOS REDC characterization -/

theorem exact_low {N NI : Nat} (hNI : N * NI % U64 = U64 - 1) (T : Nat) :
    (T + T * NI % U64 * N) % U64 = 0 := by
  have hU : (0 : Nat) < U64 := U64_pos
  have h3 : (1 + NI * N) % U64 = 0 := by
    rw [Nat.add_mod, Nat.mul_comm NI N, hNI]
    have e1 : 1 % U64 = 1 := Nat.mod_eq_of_lt one_lt_U64
    rw [e1]
    have e2 : 1 + (U64 - 1) = U64 := by omega
    rw [e2, Nat.mod_self]
  calc (T + T * NI % U64 * N) % U64
      = (T % U64 + T * NI % U64 * N % U64) % U64 := by rw [Nat.add_mod]
    _ = (T % U64 + T * NI * N % U64) % U64 := by rw [Nat.mod_mul_mod]
    _ = (T + T * NI * N) % U64 := by rw [← Nat.add_mod]
    _ = T * (1 + NI * N) % U64 := by congr 1; ring
    _ = T % U64 * ((1 + NI * N) % U64) % U64 := by rw [Nat.mul_mod]
    _ = 0 := by rw [h3, Nat.mul_zero, Nat.zero_mod]

theorem ciosLoop_ex {N NI x y : Nat} (hNI : N * NI % U64 = U64 - 1) :
    ∀ i, ∃ M, M < U64 ^ i ∧
      U64 ^ i * ciosLoop NI N x y i = x * (y % U64 ^ i) + M * N := by
  intro i
  induction i with
  | zero =>
    refine ⟨0, by norm_num, ?_⟩
    simp [ciosLoop, Nat.mod_one]
  | succ i ih =>
    obtain ⟨M, hM, heq⟩ := ih
    have hU : (0 : Nat) < U64 := U64_pos
    have hdvd : U64 ∣ ciosLoop NI N x y i + x * getWord y i +
        (ciosLoop NI N x y i + x * getWord y i) * NI % U64 * N :=
      Nat.dvd_of_mod_eq_zero (exact_low hNI _)
    have hstep : U64 * ciosLoop NI N x y (i + 1) =
        ciosLoop NI N x y i + x * getWord y i +
          (ciosLoop NI N x y i + x * getWord y i) * NI % U64 * N := by
      show U64 * cios2Step NI N x y (ciosLoop NI N x y i) i = _
      unfold cios2Step
      exact Nat.mul_div_cancel' hdvd
    set m := (ciosLoop NI N x y i + x * getWord y i) * NI % U64 with hm
    have hmU : m < U64 := Nat.mod_lt _ hU
    refine ⟨M + U64 ^ i * m, ?_, ?_⟩
    · have h1 : U64 ^ (i + 1) = U64 ^ i * U64 := by ring
      have h2 : U64 ^ i * m ≤ U64 ^ i * (U64 - 1) :=
        Nat.mul_le_mul_left _ (by omega)
      have h3 : U64 ^ i * (U64 - 1) + U64 ^ i = U64 ^ i * U64 := by
        have h4 : U64 - 1 + 1 = U64 := by omega
        calc U64 ^ i * (U64 - 1) + U64 ^ i = U64 ^ i * (U64 - 1 + 1) := by ring
          _ = U64 ^ i * U64 := by rw [h4]
      omega
    · have hpw : U64 ^ i = 2 ^ (64 * i) := by
        rw [show (U64 : Nat) = 2 ^ 64 from rfl]
        exact (pow_mul 2 64 i).symm
      have hgw : getWord y i = y / U64 ^ i % U64 := by rw [getWord_eq, hpw]
      have hmod : y % U64 ^ (i + 1) = y % U64 ^ i + U64 ^ i * (y / U64 ^ i % U64) := by
        rw [pow_succ]
        exact Nat.mod_mul
      calc U64 ^ (i + 1) * ciosLoop NI N x y (i + 1)
          = U64 ^ i * (U64 * ciosLoop NI N x y (i + 1)) := by ring
        _ = U64 ^ i * (ciosLoop NI N x y i + x * getWord y i + m * N) := by
            rw [hstep]
        _ = U64 ^ i * ciosLoop NI N x y i + U64 ^ i * (x * getWord y i) +
            U64 ^ i * m * N := by ring
        _ = x * (y % U64 ^ i) + M * N + U64 ^ i * (x * getWord y i) +
            U64 ^ i * m * N := by rw [heq]
        _ = x * (y % U64 ^ i + U64 ^ i * (y / U64 ^ i % U64)) +
            (M + U64 ^ i * m) * N := by rw [hgw]; ring
        _ = x * (y % U64 ^ (i + 1)) + (M + U64 ^ i * m) * N := by rw [hmod]

theorem ciosRedc_ok {N NI w : Nat} (hN : N % 2 = 1) (hNI : N * NI % U64 = U64 - 1)
    (a b : Nat) (hab : a * (b % U64 ^ w) < U64 ^ w * N) :
    ciosRedc NI N w a b < N ∧
      (ciosRedc NI N w a b : ZMod N) * ((U64 ^ w : Nat) : ZMod N) =
        (a : ZMod N) * ((b % U64 ^ w : Nat) : ZMod N) := by
  obtain ⟨M, hM, heq⟩ := ciosLoop_ex (x := a) (y := b) hNI w
  have hN0 : 0 < N := by omega
  have hUp : 0 < U64 ^ w := Nat.pos_pow_of_pos _ U64_pos
  have hMN : M * N < U64 ^ w * N := Nat.mul_lt_mul_of_lt_of_le hM le_rfl hN0
  have hlt2 : U64 ^ w * ciosLoop NI N a b w < U64 ^ w * (2 * N) := by
    have hW : U64 ^ w * (2 * N) = U64 ^ w * N + U64 ^ w * N := by ring
    omega
  have hT : ciosLoop NI N a b w < 2 * N := Nat.lt_of_mul_lt_mul_left hlt2
  constructor
  · exact condSub_lt hT
  · have hcast : ((U64 ^ w * ciosLoop NI N a b w : Nat) : ZMod N)
        = ((a * (b % U64 ^ w) + M * N : Nat) : ZMod N) := by rw [heq]
    push_cast [ZMod.natCast_self] at hcast
    simp only [mul_zero, add_zero] at hcast
    show (((if N ≤ ciosLoop NI N a b w then ciosLoop NI N a b w - N
        else ciosLoop NI N a b w) : Nat) : ZMod N) * ((U64 ^ w : Nat) : ZMod N)
        = (a : ZMod N) * ((b % U64 ^ w : Nat) : ZMod N)
    rw [condSub_cast]
    push_cast
    linear_combination hcast

theorem coprime_two_pow_of_odd {N : Nat} (hN : N % 2 = 1) (k : Nat) :
    Nat.Coprime (2 ^ k) N := by
  apply Nat.Coprime.pow_left
  unfold Nat.Coprime
  rw [Nat.gcd_rec, hN]
  simp

theorem cast_inj_of_lt {N a b : Nat} (ha : a < N) (hb : b < N)
    (h : (a : ZMod N) = (b : ZMod N)) : a = b := by
  haveI : NeZero N := ⟨by omega⟩
  have h1 := ZMod.val_cast_of_lt ha
  have h2 := ZMod.val_cast_of_lt hb
  rw [← h1, ← h2, h]

theorem montChain_ok {R N k : Nat} (hN : N % 2 = 1) (hR : R = 2 ^ k) (hNR : N < R)
    (f : Nat → Nat → Nat)
    (hf : ∀ a b, a < N → b < R →
      f a b < N ∧ (f a b : ZMod N) * (R : ZMod N) = (a : ZMod N) * (b : ZMod N))
    (x y : Nat) (hx : x < N) (hy : y < N) :
    f (f (f x (R * R % N)) (f y (R * R % N))) 1 = x * y % N := by
  have hN0 : 0 < N := by omega
  have hRR : R * R % N < N := Nat.mod_lt _ hN0
  have hRRR : R * R % N < R := by omega
  have h1R : 1 < R := by omega
  obtain ⟨hx1lt, hx1⟩ := hf x (R * R % N) hx hRRR
  obtain ⟨hy1lt, hy1⟩ := hf y (R * R % N) hy hRRR
  generalize hgx1 : f x (R * R % N) = x1 at hx1lt hx1 ⊢
  generalize hgy1 : f y (R * R % N) = y1 at hy1lt hy1 ⊢
  obtain ⟨hplt, hp⟩ := hf x1 y1 hx1lt (by omega)
  generalize hgp : f x1 y1 = p at hplt hp ⊢
  obtain ⟨holt, ho⟩ := hf p 1 hplt h1R
  generalize hgo : f p 1 = o at holt ho ⊢
  have ho' : (o : ZMod N) * (R : ZMod N) = (p : ZMod N) := by
    rw [ho]
    push_cast
    ring
  have hu : IsUnit ((R : Nat) : ZMod N) := by
    rw [hR]
    exact (ZMod.isUnit_iff_coprime _ _).mpr (coprime_two_pow_of_odd hN k)
  have hu4 : IsUnit (((R : Nat) : ZMod N) ^ 4) := hu.pow 4
  have hRRc : ((R * R % N : Nat) : ZMod N) = (R : ZMod N) * (R : ZMod N) := by
    rw [ZMod.natCast_mod]
    push_cast
    ring
  have hxy : ((x * y % N : Nat) : ZMod N) = (x : ZMod N) * (y : ZMod N) := by
    rw [ZMod.natCast_mod]
    push_cast
    ring
  have key : (o : ZMod N) * (R : ZMod N) ^ 4 =
      ((x : ZMod N) * (y : ZMod N)) * (R : ZMod N) ^ 4 := by
    calc (o : ZMod N) * (R : ZMod N) ^ 4
        = ((o : ZMod N) * (R : ZMod N)) * (R : ZMod N) ^ 3 := by ring
      _ = (p : ZMod N) * (R : ZMod N) ^ 3 := by rw [ho']
      _ = ((p : ZMod N) * (R : ZMod N)) * (R : ZMod N) ^ 2 := by ring
      _ = ((x1 : ZMod N) * (y1 : ZMod N)) * (R : ZMod N) ^ 2 := by rw [hp]
      _ = ((x1 : ZMod N) * (R : ZMod N)) * ((y1 : ZMod N) * (R : ZMod N)) := by ring
      _ = ((x : ZMod N) * ((R * R % N : Nat) : ZMod N)) *
          ((y : ZMod N) * ((R * R % N : Nat) : ZMod N)) := by rw [hx1, hy1]
      _ = ((x : ZMod N) * (y : ZMod N)) *
          (((R * R % N : Nat) : ZMod N) * ((R * R % N : Nat) : ZMod N)) := by ring
      _ = ((x : ZMod N) * (y : ZMod N)) *
          ((R : ZMod N) * (R : ZMod N) * ((R : ZMod N) * (R : ZMod N))) := by rw [hRRc]
      _ = ((x : ZMod N) * (y : ZMod N)) * (R : ZMod N) ^ 4 := by ring
  have key2 : (R : ZMod N) ^ 4 * (o : ZMod N) =
      (R : ZMod N) ^ 4 * ((x * y % N : Nat) : ZMod N) := by
    rw [hxy]
    linear_combination key
  exact cast_inj_of_lt holt (Nat.mod_lt _ hN0) (hu4.mul_left_cancel key2)

theorem redcBit_ok {R N k : Nat} (hN : N % 2 = 1) (hR : R = 2 ^ k) (hNR : N < R) :
    ∀ a b, a < N → b < R →
      redcCore (bitLen R - 1) N a b < N ∧
        (redcCore (bitLen R - 1) N a b : ZMod N) * (R : ZMod N) =
          (a : ZMod N) * (b : ZMod N) := by
  intro a b ha hb
  have hN0 : 0 < N := by omega
  have hkb : bitLen R - 1 = k := by
    rw [hR, bitLen_two_pow]
    omega
  have hab : a * b < 2 ^ k * N := by
    have h1 : a * b ≤ a * R := Nat.mul_le_mul_left _ (Nat.le_of_lt hb)
    have h2 : a * R < N * R := Nat.mul_lt_mul_of_lt_of_le ha le_rfl (by omega)
    have h3 : N * R = 2 ^ k * N := by rw [hR]; ring
    omega
  obtain ⟨hlt, hc⟩ := redcCore_ok (k := k) a b hN hab
  rw [hkb]
  refine ⟨hlt, ?_⟩
  rw [hR]
  push_cast
  exact hc

theorem redcCIOS_ok {N NI w : Nat} (hN : N % 2 = 1) (hNI : N * NI % U64 = U64 - 1)
    (hNR : N < U64 ^ w) :
    ∀ a b, a < N → b < U64 ^ w →
      ciosRedc NI N w a b < N ∧
        (ciosRedc NI N w a b : ZMod N) * ((U64 ^ w : Nat) : ZMod N) =
          (a : ZMod N) * (b : ZMod N) := by
  intro a b ha hb
  have hN0 : 0 < N := by omega
  have hbmod : b % U64 ^ w = b := Nat.mod_eq_of_lt hb
  have hab : a * (b % U64 ^ w) < U64 ^ w * N := by
    rw [hbmod]
    have h1 : a * b ≤ a * U64 ^ w := Nat.mul_le_mul_left _ (Nat.le_of_lt hb)
    have h2 : a * U64 ^ w < N * U64 ^ w :=
      Nat.mul_lt_mul_of_lt_of_le ha le_rfl (Nat.pos_pow_of_pos _ U64_pos)
    have h3 : N * U64 ^ w = U64 ^ w * N := by ring
    omega
  obtain ⟨hlt, hc⟩ := ciosRedc_ok hN hNI a b hab
  rw [hbmod] at hc
  exact ⟨hlt, hc⟩

/-- NI as computed by the constructors satisfies the defining congruence
N * NI = -1 mod 2^64 whenever N is odd. -/
theorem ctorNI_ok {N : Nat} (hN : N % 2 = 1) :
    N * newtonRaphsonInverse (N % U64) % U64 = U64 - 1 := by
  have h2 : (2 : Nat) ∣ U64 := by unfold U64; norm_num
  have hodd : N % U64 % 2 = 1 := by
    rw [Nat.mod_mod_of_dvd _ h2]
    exact hN
  have h := nri_correct hodd
  rw [← Nat.mod_mul_mod]
  exact h

/-- Word count stored by the CIOS constructors: for R = 2^(64w) the bit
length is 64w + 1 and integer division by 64 yields w. -/
theorem ctorS_eq (w : Nat) (hw : 1 ≤ w) : bitLen (2 ^ (64 * w)) / 64 = w := by
  rw [bitLen_two_pow]
  omega

theorem redc_eq_redc2 {R N w x y : Nat} (hN : N % 2 = 1) (hR : R = 2 ^ (64 * w))
    (hw : 1 ≤ w) (hNR : N < R) (hx : x < N) (hy : y < N) :
    redc x y R N = redc2 x y R N := by
  have hN0 : 0 < N := by omega
  have hRU : R = U64 ^ w := by
    rw [hR, show (U64 : Nat) = 2 ^ 64 from rfl, ← pow_mul]
  have hNI := ctorNI_ok hN
  obtain ⟨h1lt, h1c⟩ := redcBit_ok (k := 64 * w) hN hR hNR x y hx (by omega)
  obtain ⟨h2lt, h2c⟩ := redcCIOS_ok (w := w) hN hNI (hRU ▸ hNR) x y hx
    (hRU ▸ (show y < R by omega))
  have hS : bitLen R / 64 = w := by rw [hR]; exact ctorS_eq w hw
  show redcCore (bitLen R - 1) N x y =
    ciosRedc (newtonRaphsonInverse (N % U64)) N (bitLen R / 64) x y
  rw [hS]
  apply cast_inj_of_lt h1lt h2lt
  have hu : IsUnit ((R : Nat) : ZMod N) := by
    rw [hR]
    exact (ZMod.isUnit_iff_coprime _ _).mpr (coprime_two_pow_of_odd hN _)
  apply hu.mul_left_cancel
  have hcc : ((U64 ^ w : Nat) : ZMod N) = (R : ZMod N) := by rw [hRU]
  rw [hcc] at h2c
  linear_combination h1c - h2c

theorem montMul_ok {R N k x y : Nat} (hN : N % 2 = 1) (hR : R = 2 ^ k)
    (hNR : N < R) (hx : x < N) (hy : y < N) :
    (∃ m, NewMontgomery R N = some m ∧ Montgomery.Mul m x y = x * y % N) ∧
    (64 ∣ k → ∃ mc, NewMontgomeryCIOS R N = some mc ∧
      MontgomeryCIOS.Mul mc x y = x * y % N) := by
  have hN0 : N ≠ 0 := by omega
  constructor
  · refine ⟨⟨R, N, R * R % N⟩, ?_, ?_⟩
    · unfold NewMontgomery
      simp [hN0]
    · exact montChain_ok hN hR hNR (fun a b => redcCore (bitLen R - 1) N a b)
        (redcBit_ok hN hR hNR) x y hx hy
  · intro hdvd
    obtain ⟨w, hw⟩ := hdvd
    have hw1 : 1 ≤ w := by
      by_contra h0
      have hz : w = 0 := by omega
      rw [hw, hz, Nat.mul_zero, pow_zero] at hR
      omega
    have hS : bitLen R / 64 = w := by
      rw [hR, hw]
      exact ctorS_eq w hw1
    have hRU : R = U64 ^ w := by
      rw [hR, hw, show (U64 : Nat) = 2 ^ 64 from rfl, ← pow_mul]
    have hNI := ctorNI_ok hN
    refine ⟨⟨R, N, R * R % N, newtonRaphsonInverse (N % U64), bitLen R / 64⟩, ?_, ?_⟩
    · unfold NewMontgomeryCIOS
      simp [hN0]
    · have hf : ∀ a b, a < N → b < R →
          ciosRedc (newtonRaphsonInverse (N % U64)) N w a b < N ∧
            (ciosRedc (newtonRaphsonInverse (N % U64)) N w a b : ZMod N) *
              (R : ZMod N) = (a : ZMod N) * (b : ZMod N) := by
        intro a b ha hb
        have h := redcCIOS_ok (w := w) hN hNI (hRU ▸ hNR) a b ha (hRU ▸ hb)
        refine ⟨h.1, ?_⟩
        have hcc : ((U64 ^ w : Nat) : ZMod N) = (R : ZMod N) := by rw [hRU]
        rw [hcc] at h
        exact h.2
      have hgoal := montChain_ok hN hR hNR
        (fun a b => ciosRedc (newtonRaphsonInverse (N % U64)) N w a b) hf x y hx hy
      show MontgomeryCIOS.Mul
        ⟨R, N, R * R % N, newtonRaphsonInverse (N % U64), bitLen R / 64⟩ x y = x * y % N
      rw [hS]
      exact hgoal

/-! ### Word buffer lemmas for mulAddScalar -/

theorem tobigInt_nil : tobigInt [] = 0 := rfl

theorem tobigInt_cons (w : Nat) (l : List Nat) :
    tobigInt (w :: l) = w + U64 * tobigInt l := rfl

theorem tobigInt_lt {l : List Nat} (h : ∀ u ∈ l, u < U64) :
    tobigInt l < U64 ^ l.length := by
  induction l with
  | nil => simp [tobigInt]
  | cons w l ih =>
    have hw : w < U64 := h w (by simp)
    have hl := ih (fun u hu => h u (by simp [hu]))
    have h3 : U64 ^ l.length - 1 + 1 = U64 ^ l.length := by
      have := Nat.pos_pow_of_pos l.length U64_pos
      omega
    have h1 : U64 * tobigInt l ≤ U64 * (U64 ^ l.length - 1) :=
      Nat.mul_le_mul_left _ (by omega)
    have h2 : U64 * (U64 ^ l.length - 1) + U64 = U64 * U64 ^ l.length := by
      calc U64 * (U64 ^ l.length - 1) + U64 = U64 * (U64 ^ l.length - 1 + 1) := by ring
        _ = U64 * U64 ^ l.length := by rw [h3]
    have h4 : U64 ^ (w :: l).length = U64 * U64 ^ l.length := by
      rw [List.length_cons, pow_succ]
      ring
    rw [tobigInt_cons]
    omega

theorem cons_mod (a b L : Nat) :
    (a + U64 * b) % U64 ^ (L + 1) =
      a % U64 + U64 * ((a / U64 + b) % U64 ^ L) := by
  have hdi : (a + U64 * b) / U64 = a / U64 + b := Nat.add_mul_div_left a b U64_pos
  have hmo : (a + U64 * b) % U64 = a % U64 := Nat.add_mul_mod_self_left a U64 b
  rw [pow_succ', Nat.mod_mul, hdi, hmo]

theorem propagate_spec : ∀ (T : List Nat) (carry : Nat),
    (∀ u ∈ T, u < U64) → carry < U64 →
    (propagate T carry).length = T.length ∧ (∀ u ∈ propagate T carry, u < U64) ∧
      tobigInt (propagate T carry) = (tobigInt T + carry) % U64 ^ T.length := by
  intro T
  induction T with
  | nil =>
    intro carry h hc
    simp [propagate, tobigInt, Nat.mod_one]
  | cons t T ih =>
    intro carry h hc
    have ht : t < U64 := h t (by simp)
    by_cases h0 : carry = 0
    · subst h0
      have hp0 : propagate (t :: T) 0 = t :: T := by simp [propagate]
      rw [hp0]
      refine ⟨rfl, h, ?_⟩
      have hlt := tobigInt_lt (l := t :: T) h
      rw [Nat.add_zero, Nat.mod_eq_of_lt hlt]
    · simp only [propagate, if_neg h0]
      have hd : (t + carry) / U64 < U64 := by
        have h1 : (t + carry) / U64 < 2 :=
          (Nat.div_lt_iff_lt_mul U64_pos).mpr (by omega)
        have := one_lt_U64
        omega
      obtain ⟨hlen, hmem, hval⟩ := ih ((t + carry) / U64)
        (fun u hu => h u (by simp [hu])) hd
      refine ⟨by simp [hlen], ?_, ?_⟩
      · intro u hu
        rcases List.mem_cons.mp hu with h1 | h1
        · rw [h1]; exact Nat.mod_lt _ U64_pos
        · exact hmem u h1
      · rw [tobigInt_cons, hval, tobigInt_cons, List.length_cons]
        rw [show t + U64 * tobigInt T + carry = t + carry + U64 * tobigInt T from by
          ring]
        rw [cons_mod]
        rw [Nat.add_comm (tobigInt T) ((t + carry) / U64)]

theorem mulAddGo_spec : ∀ (arr T : List Nat) (scalar carry : Nat),
    (∀ u ∈ T, u < U64) → (∀ u ∈ arr, u < U64) → scalar < U64 → carry < U64 →
    arr.length ≤ T.length →
    ∃ T2, mulAddGo T arr scalar carry = some T2 ∧ T2.length = T.length ∧
      (∀ u ∈ T2, u < U64) ∧
      tobigInt T2 = (tobigInt T + tobigInt arr * scalar + carry) % U64 ^ T.length := by
  intro arr
  induction arr with
  | nil =>
    intro T scalar carry hT ha hs hc _
    obtain ⟨h1, h2, h3⟩ := propagate_spec T carry hT hc
    have hrun : mulAddGo T [] scalar carry = some (propagate T carry) := by
      cases T <;> rfl
    exact ⟨propagate T carry, hrun, h1, h2, by rw [h3, tobigInt_nil, Nat.zero_mul,
      Nat.add_zero]⟩
  | cons a arr ih =>
    intro T scalar carry hT ha hs hc hlen
    cases T with
    | nil => simp at hlen
    | cons t T =>
      have ht : t < U64 := hT t (by simp)
      have haU : a < U64 := ha a (by simp)
      have hU : (U64 : Nat) = 2 ^ 64 := rfl
      have hP : a * scalar ≤ (U64 - 1) * (U64 - 1) :=
        Nat.mul_le_mul (by omega) (by omega)
      have hKlt : a * scalar / U64 + (t + a * scalar % U64) / U64 +
          ((t + a * scalar % U64) % U64 + carry) / U64 < U64 := by
        simp only [hU] at hP ht haU hs hc ⊢
        omega
      obtain ⟨T2, heq2, hlen2, hmem2, hval2⟩ := ih T scalar
        ((a * scalar / U64 + (t + a * scalar % U64) / U64 +
          ((t + a * scalar % U64) % U64 + carry) / U64) % U64)
        (fun u hu => hT u (by simp [hu])) (fun u hu => ha u (by simp [hu])) hs
        (Nat.mod_lt _ U64_pos)
        (by simp only [List.length_cons] at hlen; omega)
      rw [Nat.mod_eq_of_lt hKlt] at hval2
      refine ⟨((t + a * scalar % U64) % U64 + carry) % U64 :: T2, ?_, ?_, ?_, ?_⟩
      · show Option.map (fun T2 => ((t + a * scalar % U64) % U64 + carry) % U64 :: T2)
          (mulAddGo T arr scalar ((a * scalar / U64 + (t + a * scalar % U64) / U64 +
            ((t + a * scalar % U64) % U64 + carry) / U64) % U64)) = _
        rw [heq2]
        rfl
      · simp [hlen2]
      · intro u hu
        rcases List.mem_cons.mp hu with h1 | h1
        · rw [h1]; exact Nat.mod_lt _ U64_pos
        · exact hmem2 u h1
      · rw [tobigInt_cons, hval2, tobigInt_cons, tobigInt_cons,
          List.length_cons]
        rw [show t + U64 * tobigInt T + (a + U64 * tobigInt arr) * scalar + carry
            = t + a * scalar + carry + U64 * (tobigInt T + tobigInt arr * scalar)
          from by ring]
        rw [cons_mod]
        have e1 : (t + a * scalar + carry) % U64 =
            ((t + a * scalar % U64) % U64 + carry) % U64 := by
          simp only [hU]
          omega
        have e2 : (t + a * scalar + carry) / U64 = a * scalar / U64 +
            (t + a * scalar % U64) / U64 +
            ((t + a * scalar % U64) % U64 + carry) / U64 := by
          simp only [hU] at hP ht haU hs hc ⊢
          omega
        rw [e1, e2]
        rw [Nat.add_comm (a * scalar / U64 + (t + a * scalar % U64) / U64 +
          ((t + a * scalar % U64) % U64 + carry) / U64)
          (tobigInt T + tobigInt arr * scalar)]

theorem frombigInt_length (x : Nat) : (frombigInt x).length = numWords x := by
  simp [frombigInt]

theorem one_add_NIN {N NI : Nat} (hNI : N * NI % U64 = U64 - 1) :
    (1 + NI * N) % U64 = 0 := by
  have hU := U64_pos
  rw [Nat.add_mod, Nat.mul_comm NI N, hNI]
  have e1 : 1 % U64 = 1 := Nat.mod_eq_of_lt one_lt_U64
  rw [e1]
  have e2 : 1 + (U64 - 1) = U64 := by omega
  rw [e2, Nat.mod_self]

theorem mulAdd_head_zero {N NI : Nat} (hN1 : 1 ≤ N) (hNI : N * NI % U64 = U64 - 1)
    {t0 : Nat} {rest : List Nat} (ht0 : t0 < U64) (hrest : ∀ u ∈ rest, u < U64)
    (hlen : (frombigInt N).length ≤ rest.length + 1) :
    ∃ T2, mulAddScalar (t0 :: rest) (frombigInt N) (t0 * NI % U64) = some T2 ∧
      T2.head? = some 0 := by
  obtain ⟨rest', hfb, hmem', hlen'⟩ := frombigInt_cons hN1
  rw [hfb]
  have hlenf : (frombigInt N).length = numWords N := frombigInt_length N
  have hlen2 : rest'.length ≤ rest.length := by
    have h5 := numWords_pos hN1
    rw [hlenf] at hlen
    omega
  obtain ⟨T2, heq2, _, _, _⟩ := mulAddGo_spec rest' rest (t0 * NI % U64)
    ((N % U64 * (t0 * NI % U64) / U64 + (t0 + N % U64 * (t0 * NI % U64) % U64) / U64 +
      ((t0 + N % U64 * (t0 * NI % U64) % U64) % U64 + 0) / U64) % U64)
    hrest hmem' (Nat.mod_lt _ U64_pos) (Nat.mod_lt _ U64_pos) hlen2
  refine ⟨((t0 + N % U64 * (t0 * NI % U64) % U64) % U64 + 0) % U64 :: T2, ?_, ?_⟩
  · show Option.map _ (mulAddGo rest rest' (t0 * NI % U64) _) = _
    rw [heq2]
    rfl
  · show some (((t0 + N % U64 * (t0 * NI % U64) % U64) % U64 + 0) % U64) = some 0
    congr 1
    have h1 : N % U64 * (t0 * NI % U64) % U64 = N * (t0 * NI) % U64 := by
      rw [Nat.mod_mul_mod, Nat.mul_mod_mod]
    rw [Nat.add_zero, Nat.mod_mod_of_dvd _ (dvd_refl U64), h1, Nat.add_mod_mod]
    rw [show t0 + N * (t0 * NI) = t0 * (1 + NI * N) from by ring]
    rw [Nat.mul_mod, one_add_NIN hNI, Nat.mul_zero, Nat.zero_mod]

/-- Full-precision characterization of mulAddScalar: with room in T, the call
succeeds and leaves T holding the old value plus arr times the scalar,
reduced modulo the capacity of T. -/
theorem mulAddScalar_mod {T arr : List Nat} {scalar : Nat}
    (hT : ∀ u ∈ T, u < U64) (ha : ∀ u ∈ arr, u < U64) (hs : scalar < U64)
    (hlen : arr.length ≤ T.length) :
    ∃ T2, mulAddScalar T arr scalar = some T2 ∧ T2.length = T.length ∧
      (∀ u ∈ T2, u < U64) ∧
      tobigInt T2 = (tobigInt T + tobigInt arr * scalar) % U64 ^ T.length := by
  obtain ⟨T2, h1, h2, h3, h4⟩ := mulAddGo_spec arr T scalar 0 hT ha hs U64_pos hlen
  rw [Nat.add_zero] at h4
  exact ⟨T2, h1, h2, h3, h4⟩

/-- Without overflow the reduction modulo the capacity is the identity. -/
theorem mulAddScalar_exact {T arr : List Nat} {scalar : Nat}
    (hT : ∀ u ∈ T, u < U64) (ha : ∀ u ∈ arr, u < U64) (hs : scalar < U64)
    (hlen : arr.length ≤ T.length)
    (hcap : tobigInt T + tobigInt arr * scalar < U64 ^ T.length) :
    ∃ T2, mulAddScalar T arr scalar = some T2 ∧ T2.length = T.length ∧
      tobigInt T2 = tobigInt T + tobigInt arr * scalar := by
  obtain ⟨T2, h1, h2, _, h4⟩ := mulAddScalar_mod hT ha hs hlen
  rw [Nat.mod_eq_of_lt hcap] at h4
  exact ⟨T2, h1, h2, h4⟩

/-! ### Claim theorems -/

/-- C4: for every odd 64-bit unsigned integer n, newtonRaphsonInverse n is a
64-bit value whose wraparound product with n is 0xFFFFFFFFFFFFFFFF; in
particular the inverse of 0xFFFFFFFFFFFFFFFF is 1, and for
n = 0xABCDEF0123456789 the product n * ni mod 2^64 is 0xFFFFFFFFFFFFFFFF. -/
theorem c4_theorem :
    (∀ n, n < U64 → n % 2 = 1 → n * newtonRaphsonInverse n % U64 = U64 - 1) ∧
    newtonRaphsonInverse 0xFFFFFFFFFFFFFFFF = 0x0000000000000001 ∧
    0xABCDEF0123456789 * newtonRaphsonInverse 0xABCDEF0123456789 % U64 =
      0xFFFFFFFFFFFFFFFF := by
  refine ⟨fun n _ hodd => nri_correct hodd, by decide, by decide⟩

theorem c4_theorem_witness :
    0xABCDEF0123456789 % 2 = 1 ∧
    0xABCDEF0123456789 * newtonRaphsonInverse 0xABCDEF0123456789 % U64 = U64 - 1 :=
  ⟨by decide, c4_theorem.1 0xABCDEF0123456789 (by decide) (by decide)⟩

/-- C5: for every word buffer T, word sequence arr and 64-bit scalar with
len(T) at least len(arr) and value(T) + value(arr) * scalar below
2^(64 len(T)), mulAddScalar succeeds and leaves T holding exactly
value(T) + value(arr) * scalar, carries propagated across and beyond
len(arr). -/
theorem c5_theorem {T arr : List Nat} {scalar : Nat}
    (hT : ∀ u ∈ T, u < U64) (ha : ∀ u ∈ arr, u < U64) (hs : scalar < U64)
    (hlen : arr.length ≤ T.length)
    (hcap : tobigInt T + tobigInt arr * scalar < U64 ^ T.length) :
    ∃ T2, mulAddScalar T arr scalar = some T2 ∧ T2.length = T.length ∧
      tobigInt T2 = tobigInt T + tobigInt arr * scalar :=
  mulAddScalar_exact hT ha hs hlen hcap

theorem c5_theorem_witness :
    ∃ T2, mulAddScalar [5, 0] [3] 7 = some T2 ∧ T2.length = 2 ∧
      tobigInt T2 = tobigInt [5, 0] + tobigInt [3] * 7 :=
  c5_theorem (by decide) (by decide) (by decide) (by decide) (by decide)

/-- C6: in every iteration of the word-serial CIOS reduction with odd N, the
accumulator after adding m * N has zero low 64-bit word, and the shift by 64
bits is exact division by 2^64; in the word-array variant the head word of
the buffer after the second mulAddScalar is zero. -/
theorem c6_theorem {N : Nat} (hN : N % 2 = 1) (x y T i : Nat)
    (t0 : Nat) (rest : List Nat) (ht0 : t0 < U64) (hrest : ∀ u ∈ rest, u < U64)
    (hlen : (frombigInt N).length ≤ rest.length + 1) :
    (T + x * getWord y i +
        (T + x * getWord y i) * newtonRaphsonInverse (N % U64) % U64 * N) % U64 = 0 ∧
    U64 * cios2Step (newtonRaphsonInverse (N % U64)) N x y T i =
      T + x * getWord y i +
        (T + x * getWord y i) * newtonRaphsonInverse (N % U64) % U64 * N ∧
    (∃ T2, mulAddScalar (t0 :: rest) (frombigInt N)
        (t0 * newtonRaphsonInverse (N % U64) % U64) = some T2 ∧
      T2.head? = some 0) := by
  have hNI := ctorNI_ok hN
  have hN1 : 1 ≤ N := by omega
  have hdvd : U64 ∣ T + x * getWord y i +
      (T + x * getWord y i) * newtonRaphsonInverse (N % U64) % U64 * N :=
    Nat.dvd_of_mod_eq_zero (exact_low hNI _)
  exact ⟨exact_low hNI _, Nat.mul_div_cancel' hdvd,
    mulAdd_head_zero hN1 hNI ht0 hrest hlen⟩

theorem c6_theorem_witness :
    (5 + 2 * getWord 7 0 +
        (5 + 2 * getWord 7 0) * newtonRaphsonInverse (3 % U64) % U64 * 3) % U64 = 0 ∧
    U64 * cios2Step (newtonRaphsonInverse (3 % U64)) 3 2 7 5 0 =
      5 + 2 * getWord 7 0 +
        (5 + 2 * getWord 7 0) * newtonRaphsonInverse (3 % U64) % U64 * 3 ∧
    (∃ T2, mulAddScalar (9 :: [0]) (frombigInt 3)
        (9 * newtonRaphsonInverse (3 % U64) % U64) = some T2 ∧
      T2.head? = some 0) :=
  c6_theorem (by decide) 2 7 5 0 9 [0] (by decide) (by decide) (by decide)

/-- C10: the outgoing carry hi + c1 + c2 of a word step of mulAddScalar never
wraps around 2^64, and for arbitrary inputs with len(T) at least len(arr)
the call leaves T holding (value(T) + value(arr) * scalar) reduced modulo
2^(64 len(T)). -/
theorem c10_theorem :
    (∀ t a scalar carry : Nat, t < U64 → a < U64 → scalar < U64 → carry < U64 →
      a * scalar / U64 + (t + a * scalar % U64) / U64 +
        ((t + a * scalar % U64) % U64 + carry) / U64 < U64) ∧
    (∀ (T arr : List Nat) (scalar : Nat), (∀ u ∈ T, u < U64) →
      (∀ u ∈ arr, u < U64) → scalar < U64 → arr.length ≤ T.length →
      ∃ T2, mulAddScalar T arr scalar = some T2 ∧ T2.length = T.length ∧
        tobigInt T2 = (tobigInt T + tobigInt arr * scalar) % U64 ^ T.length) := by
  constructor
  · intro t a scalar carry ht haU hs hc
    have hU : (U64 : Nat) = 2 ^ 64 := rfl
    have hP : a * scalar ≤ (U64 - 1) * (U64 - 1) :=
      Nat.mul_le_mul (by omega) (by omega)
    simp only [hU] at hP ht haU hs hc ⊢
    omega
  · intro T arr scalar hT ha hs hlen
    obtain ⟨T2, h1, h2, _, h4⟩ := mulAddScalar_mod hT ha hs hlen
    exact ⟨T2, h1, h2, h4⟩

theorem c10_theorem_witness :
    ((U64 - 1) * (U64 - 1) / U64 + (U64 - 1 + (U64 - 1) * (U64 - 1) % U64) / U64 +
      ((U64 - 1 + (U64 - 1) * (U64 - 1) % U64) % U64 + (U64 - 1)) / U64 < U64) ∧
    (∃ T2, mulAddScalar [0] [1] 5 = some T2 ∧ T2.length = 1 ∧
      tobigInt T2 = (tobigInt [0] + tobigInt [1] * 5) % U64 ^ 1) :=
  ⟨c10_theorem.1 (U64 - 1) (U64 - 1) (U64 - 1) (U64 - 1) (by decide) (by decide)
      (by decide) (by decide),
    c10_theorem.2 [0] [1] 5 (by decide) (by decide) (by decide) (by decide)⟩

/-- C1 (amended): for every odd N, R = 2^k with N < R (k a multiple of 64 for
the CIOS variant) and canonical inputs, Montgomery.Mul and
MontgomeryCIOS.Mul return exactly (x * y) mod N. MontgomeryWords.Mul panics
on some such inputs instead (see the counterexample). -/
theorem c1_theorem {R N k x y : Nat} (hN : N % 2 = 1) (hR : R = 2 ^ k)
    (hNR : N < R) (hx : x < N) (hy : y < N) :
    (∃ m, NewMontgomery R N = some m ∧ Montgomery.Mul m x y = x * y % N) ∧
    (64 ∣ k → ∃ mc, NewMontgomeryCIOS R N = some mc ∧
      MontgomeryCIOS.Mul mc x y = x * y % N) :=
  montMul_ok hN hR hNR hx hy

theorem c1_theorem_witness :
    (∃ m, NewMontgomery (2 ^ 64) 5 = some m ∧ Montgomery.Mul m 3 4 = 3 * 4 % 5) ∧
    (64 ∣ 64 → ∃ mc, NewMontgomeryCIOS (2 ^ 64) 5 = some mc ∧
      MontgomeryCIOS.Mul mc 3 4 = 3 * 4 % 5) :=
  @c1_theorem (2 ^ 64) 5 64 3 4 (by decide) rfl (by decide) (by decide) (by decide)

set_option maxRecDepth 8000 in
theorem c1_counterexample :
    NewMontgomeryWords (2 ^ 320) (2 ^ 320 - 1) =
      some ⟨2 ^ 320, 2 ^ 320 - 1, 1, 1, 5, frombigInt (2 ^ 320 - 1)⟩ ∧
    MontgomeryWords.Mul ⟨2 ^ 320, 2 ^ 320 - 1, 1, 1, 5, frombigInt (2 ^ 320 - 1)⟩
      1 1 = none := by
  constructor
  · decide
  · decide

/-- C2 (amended): for every odd N, R = 2^k with N < R and k a positive
multiple of 64, and inputs 0 <= x, y < N, the bit-serial redc and the
word-serial CIOS redc2 return identical values, including when y has fewer
significant words than S; redc3 instead panics with an index out of range on
some such inputs (see the counterexample). -/
theorem c2_theorem {R N w x y : Nat} (hN : N % 2 = 1) (hR : R = 2 ^ (64 * w))
    (hw : 1 ≤ w) (hNR : N < R) (hx : x < N) (hy : y < N) :
    redc x y R N = redc2 x y R N :=
  redc_eq_redc2 hN hR hw hNR hx hy

theorem c2_theorem_witness : redc 3 4 (2 ^ 64) 5 = redc2 3 4 (2 ^ 64) 5 :=
  @c2_theorem (2 ^ 64) 5 1 3 4 (by decide) rfl (by decide) (by decide) (by decide)
    (by decide)

set_option maxRecDepth 8000 in
theorem c2_counterexample :
    redc3 1 1 (2 ^ 320) (2 ^ 320 - 1) = none ∧
    redc 1 1 (2 ^ 320) (2 ^ 320 - 1) = 1 ∧
    redc2 1 1 (2 ^ 320) (2 ^ 320 - 1) = 1 := by
  refine ⟨by decide, by decide, by decide⟩

/-- C3 (amended): for every odd N, R = 2^k with N < R (k a multiple of 64
for CIOS) and canonical inputs, including the boundary x = y = N - 1, the
values returned by Montgomery.Mul and MontgomeryCIOS.Mul lie in [0, N);
MontgomeryWords.Mul panics on some such inputs instead of returning a value
(see the counterexample). -/
theorem c3_theorem {R N k x y : Nat} (hN : N % 2 = 1) (hR : R = 2 ^ k)
    (hNR : N < R) (hx : x < N) (hy : y < N) :
    (∃ m, NewMontgomery R N = some m ∧ Montgomery.Mul m x y < N) ∧
    (64 ∣ k → ∃ mc, NewMontgomeryCIOS R N = some mc ∧
      MontgomeryCIOS.Mul mc x y < N) := by
  obtain ⟨⟨m, hm, hmul⟩, hcios⟩ := montMul_ok hN hR hNR hx hy
  have hN0 : 0 < N := by omega
  refine ⟨⟨m, hm, by rw [hmul]; exact Nat.mod_lt _ hN0⟩, fun hd => ?_⟩
  obtain ⟨mc, hmc, hmulc⟩ := hcios hd
  exact ⟨mc, hmc, by rw [hmulc]; exact Nat.mod_lt _ hN0⟩

theorem c3_theorem_witness :
    (∃ m, NewMontgomery (2 ^ 64) 5 = some m ∧ Montgomery.Mul m 4 4 < 5) ∧
    (64 ∣ 64 → ∃ mc, NewMontgomeryCIOS (2 ^ 64) 5 = some mc ∧
      MontgomeryCIOS.Mul mc 4 4 < 5) :=
  @c3_theorem (2 ^ 64) 5 64 4 4 (by decide) rfl (by decide) (by decide) (by decide)

set_option maxRecDepth 8000 in
theorem c3_counterexample :
    NewMontgomeryWords (2 ^ 320) (2 ^ 320 - 1) =
      some ⟨2 ^ 320, 2 ^ 320 - 1, 1, 1, 5, frombigInt (2 ^ 320 - 1)⟩ ∧
    (MontgomeryWords.Mul ⟨2 ^ 320, 2 ^ 320 - 1, 1, 1, 5, frombigInt (2 ^ 320 - 1)⟩
      1 1).isSome = false := by
  constructor
  · decide
  · decide

/-- C7 (amended): the constructors perform no validation at all: for every
N other than 0 they return a context, whether N is even or odd and whether
or not R is a power of two aligned to the word size; the only failure is the
division-by-zero panic of the R * R mod N precomputation at N = 0. -/
theorem c7_theorem (R N : Nat) :
    (N ≠ 0 → (NewMontgomery R N).isSome ∧ (NewMontgomeryCIOS R N).isSome ∧
      (NewMontgomeryWords R N).isSome) ∧
    NewMontgomery R 0 = none ∧ NewMontgomeryCIOS R 0 = none ∧
      NewMontgomeryWords R 0 = none := by
  refine ⟨fun h0 => ?_, rfl, rfl, rfl⟩
  unfold NewMontgomery NewMontgomeryCIOS NewMontgomeryWords
  simp [h0]

theorem c7_theorem_witness :
    (NewMontgomery (2 ^ 64) 4).isSome ∧ (NewMontgomeryCIOS (2 ^ 64) 4).isSome ∧
      (NewMontgomeryWords (2 ^ 64) 4).isSome :=
  (c7_theorem (2 ^ 64) 4).1 (by decide)

theorem c7_counterexample :
    NewMontgomeryCIOS (2 ^ 64) 4 =
      some ⟨2 ^ 64, 4, 0, newtonRaphsonInverse (4 % U64), 1⟩ ∧
    NewMontgomery 10 3 = some ⟨10, 3, 1⟩ := by
  constructor
  · decide
  · decide

/-- C8 (amended): for R = 2^k with k = 64w a positive multiple of 64, the
stored word count S of both CIOS contexts equals k / 64 = w, which is the
floor of bitLen(R) / 64; the division is not exact: bitLen(R) = k + 1,
leaving remainder 1. -/
theorem c8_theorem (w N : Nat) (hw : 1 ≤ w) (hN : N ≠ 0) :
    ∃ c d, NewMontgomeryCIOS (2 ^ (64 * w)) N = some c ∧
      NewMontgomeryWords (2 ^ (64 * w)) N = some d ∧
      c.S = w ∧ d.S = w ∧ c.S = 64 * w / 64 ∧
      bitLen (2 ^ (64 * w)) = 64 * w + 1 := by
  have hS := ctorS_eq w hw
  have hdiv : 64 * w / 64 = w := by omega
  refine ⟨⟨2 ^ (64 * w), N, 2 ^ (64 * w) * 2 ^ (64 * w) % N,
      newtonRaphsonInverse (N % U64), bitLen (2 ^ (64 * w)) / 64⟩,
    ⟨2 ^ (64 * w), N, 2 ^ (64 * w) * 2 ^ (64 * w) % N,
      newtonRaphsonInverse (N % U64), bitLen (2 ^ (64 * w)) / 64, frombigInt N⟩,
    ?_, ?_, hS, hS, ?_, ?_⟩
  · unfold NewMontgomeryCIOS
    simp [hN]
  · unfold NewMontgomeryWords
    simp [hN]
  · exact hS.trans hdiv.symm
  · rw [bitLen_two_pow]

theorem c8_theorem_witness :
    ∃ c d, NewMontgomeryCIOS (2 ^ (64 * 1)) 3 = some c ∧
      NewMontgomeryWords (2 ^ (64 * 1)) 3 = some d ∧
      c.S = 1 ∧ d.S = 1 ∧ c.S = 64 * 1 / 64 ∧
      bitLen (2 ^ (64 * 1)) = 64 * 1 + 1 :=
  c8_theorem 1 3 (by decide) (by decide)

theorem c8_counterexample :
    NewMontgomeryCIOS (2 ^ 64) 3 =
      some ⟨2 ^ 64, 3, 1, newtonRaphsonInverse (3 % U64), 1⟩ ∧
    bitLen (2 ^ 64) ≠ 64 * 1 := by
  constructor
  · decide
  · decide
